import Mathlib

/-!
# Verification of the `nsstring!` constant-string pipeline (fruity)

Shallow embedding of `src/src/foundation/nsstring/macros.rs`: the
compile-time pipeline that turns a UTF-8 byte string into a CoreFoundation
constant-string descriptor (trim trailing nul, classify ASCII vs UTF-16,
transcode, build the descriptor with an appended nul terminator that is not
counted in the length field).

Bytes and UTF-16 code units are modelled as `Nat`; byte strings and code
unit buffers as `List Nat`.  The helper functions of `_priv::cfstring`
(`trim_trailing_nul`, `is_ascii`, `EncodeUtf16Iter`) are not part of the
given sources, so they are modelled from the spec, as marked on each
definition.  The macro body itself (branching, buffer construction, length
fields) is translated from the source.
-/

namespace Fruity

/-- Modelled from the spec: `_priv::cfstring::trim_trailing_nul` is not in
the given sources.  Spec §4.1: "Output = byte sequence with the single
trailing zero byte removed if present, otherwise unchanged." -/
def trim_trailing_nul (s : List Nat) : List Nat :=
  if s.getLast? = some 0 then s.dropLast else s

/-- Modelled from the spec: `_priv::cfstring::is_ascii` is not in the given
sources.  Spec §4.2: "Output = boolean: true iff every byte value is in
[0, 127]." -/
def is_ascii (s : List Nat) : Bool :=
  s.all (fun b => decide (b < 0x80))

/-- Modelled from the spec: the 1-or-2 code unit output of one step of the
transcoder (`Utf16Chars` of `_priv::cfstring::utf16`, used in the macro as
`chars.repr[0]`, `chars.repr[1]`, `chars.len`). -/
structure Utf16Chars where
  repr : Nat × Nat
  len : Nat
  deriving DecidableEq

/-- Modelled from the spec: the surrogate-pair formula of §4.3, "emitting
either one code unit (scalar ≤ U+FFFF) or a correctly computed high/low
surrogate pair (scalar in U+10000..U+10FFFF, using the standard surrogate
pair formula: subtract 0x10000, split into high 10 bits + 0xD800 and low
10 bits + 0xDC00)". -/
def encodeUtf16Scalar (c : Nat) : Utf16Chars :=
  if c ≤ 0xFFFF then ⟨(c, 0), 1⟩
  else ⟨(0xD800 + (c - 0x10000) / 0x400, 0xDC00 + (c - 0x10000) % 0x400), 2⟩

/-- Modelled from the spec: §4.3, "decoding one Unicode scalar value at a
time from the UTF-8 byte stream", interpreting "1-, 2-, 3-, and 4-byte
UTF-8 sequences per the standard continuation-byte bit patterns".  Returns
the decoded scalar and the remaining bytes, or `none` at the end of input
(malformed input, out of scope per the spec, also yields `none`). -/
def decodeUtf8Next : List Nat → Option (Nat × List Nat)
  | [] => none
  | b :: rest =>
    if b < 0x80 then
      some (b, rest)
    else if b < 0xC0 then
      none
    else if b < 0xE0 then
      match rest with
      | b1 :: rest1 =>
        if 0x80 ≤ b1 ∧ b1 < 0xC0 then
          some ((b - 0xC0) * 0x40 + (b1 - 0x80), rest1)
        else none
      | [] => none
    else if b < 0xF0 then
      match rest with
      | b1 :: b2 :: rest2 =>
        if (0x80 ≤ b1 ∧ b1 < 0xC0) ∧ (0x80 ≤ b2 ∧ b2 < 0xC0) then
          some ((b - 0xE0) * 0x1000 + (b1 - 0x80) * 0x40 + (b2 - 0x80), rest2)
        else none
      | _ => none
    else if b < 0xF8 then
      match rest with
      | b1 :: b2 :: b3 :: rest3 =>
        if (0x80 ≤ b1 ∧ b1 < 0xC0) ∧ (0x80 ≤ b2 ∧ b2 < 0xC0) ∧ (0x80 ≤ b3 ∧ b3 < 0xC0) then
          some ((b - 0xF0) * 0x40000 + (b1 - 0x80) * 0x1000 +
                (b2 - 0x80) * 0x40 + (b3 - 0x80), rest3)
        else none
      | _ => none
    else none

/-- Modelled from the spec: the state of `EncodeUtf16Iter` of
`_priv::cfstring::utf16` (not in the given sources), a "lazy, finite,
non-restartable sequence of UTF-16 code units" over the remaining UTF-8
bytes. -/
structure EncodeUtf16Iter where
  data : List Nat
  deriving DecidableEq

/-- Modelled from the spec: one step of the transcoder: decode the next
scalar from the UTF-8 bytes and emit its UTF-16 code units. -/
def EncodeUtf16Iter.next (it : EncodeUtf16Iter) : Option (EncodeUtf16Iter × Utf16Chars) :=
  match decodeUtf8Next it.data with
  | none => none
  | some (c, rest) => some (⟨rest⟩, encodeUtf16Scalar c)

/-- The code units written for one decoded character by the loop body in
the macro (`macros.rs` lines 144-153): `repr[0]` always, `repr[1]` when
`len > 1`. -/
def Utf16Chars.units (ch : Utf16Chars) : List Nat :=
  if ch.len > 1 then [ch.repr.1, ch.repr.2] else [ch.repr.1]

/-- Fuel-indexed unrolling of the `while let` loop of `UTF16_FULL`
(`macros.rs` lines 144-153): run the iterator, appending each step's units
in order, for at most `fuel` iterations.  The fuel is an embedding device
only: each `next` consumes at least one input byte
(`EncodeUtf16Iter.next_length`), so any fuel larger than the byte count
yields the loop's true, fuel-independent result
(`utf16WrittenAux_congr`). -/
def utf16WrittenAux : Nat → EncodeUtf16Iter → List Nat
  | 0, _ => []
  | fuel + 1, it =>
    match it.next with
    | none => []
    | some (it2, chars) => chars.units ++ utf16WrittenAux fuel it2

/-- The sequence of code units produced by the `while let` loop of
`UTF16_FULL` (`macros.rs` lines 139-156): run the iterator to exhaustion.
`UTF16_FULL.1` (the written count) is the length of this list. -/
def utf16Written (it : EncodeUtf16Iter) : List Nat :=
  utf16WrittenAux (it.data.length + 1) it

/-- The `CFStringAscii` descriptor as the macro constructs it: the data
buffer is the trimmed input bytes with one appended nul byte
(`ASCII_ARRAY`), and the length field is the trimmed input's byte count
(`macros.rs` lines 111-136).  The external class-reference field is an
opaque linker symbol and is not modelled. -/
structure CFStringAscii where
  data : List Nat
  length : Nat
  deriving DecidableEq

/-- The `CFStringUtf16` descriptor as the macro constructs it: the data
buffer is the written UTF-16 code units with one appended nul unit
(`UTF16_ARRAY`), and the length field is the written count `UTF16_FULL.1`
(`macros.rs` lines 139-184). -/
structure CFStringUtf16 where
  data : List Nat
  length : Nat
  deriving DecidableEq

/-- The descriptor placed by the macro: one of the two variants. -/
inductive CFString where
  | ascii (a : CFStringAscii)
  | utf16 (u : CFStringUtf16)
  deriving DecidableEq

/-- The whole `nsstring!` pipeline (`macros.rs` lines 107-186): trim one
trailing nul, branch on `is_ascii`, and build the corresponding descriptor
with an appended nul terminator not counted in the length. -/
def nsstring (s : List Nat) : CFString :=
  let INPUT := trim_trailing_nul s
  if is_ascii INPUT then
    CFString.ascii ⟨INPUT ++ [0], INPUT.length⟩
  else
    let written := utf16Written ⟨INPUT⟩
    CFString.utf16 ⟨written ++ [0], written.length⟩

/-- The length field of either variant. -/
def CFString.length : CFString → Nat
  | .ascii a => a.length
  | .utf16 u => u.length

/-- The content buffer of either variant (code units as `Nat`). -/
def CFString.data : CFString → List Nat
  | .ascii a => a.data
  | .utf16 u => u.data

/-- Whether the Ascii variant was chosen. -/
def CFString.isAscii : CFString → Bool
  | .ascii _ => true
  | .utf16 _ => false

/-!
## Reference definitions for stating the specification's properties

A "valid UTF-8 input string" is represented by its sequence of Unicode
scalar values; `utf8Encode` produces its UTF-8 bytes.  `decodeUtf16` and
`decodeDescriptor` express "decoding the produced descriptor back to
text", the round-trip verification interface of spec §6 (an external
collaborator, hence stated from the spec's words). -/

/-- A Unicode scalar value: below `0x110000` and not a surrogate. -/
def ValidScalar (c : Nat) : Prop :=
  c < 0x110000 ∧ ¬(0xD800 ≤ c ∧ c < 0xE000)

instance (c : Nat) : Decidable (ValidScalar c) := by
  unfold ValidScalar
  infer_instance

/-- Standard UTF-8 encoding of one Unicode scalar value. -/
def utf8EncodeScalar (c : Nat) : List Nat :=
  if c < 0x80 then [c]
  else if c < 0x800 then
    [0xC0 + c / 0x40, 0x80 + c % 0x40]
  else if c < 0x10000 then
    [0xE0 + c / 0x1000, 0x80 + c / 0x40 % 0x40, 0x80 + c % 0x40]
  else
    [0xF0 + c / 0x40000, 0x80 + c / 0x1000 % 0x40, 0x80 + c / 0x40 % 0x40, 0x80 + c % 0x40]

/-- Standard UTF-8 encoding of a sequence of scalar values. -/
def utf8Encode : List Nat → List Nat
  | [] => []
  | c :: cs => utf8EncodeScalar c ++ utf8Encode cs

/-- The UTF-16 code units of a sequence of scalar values, one or two units
per scalar in source order. -/
def encodeUtf16List : List Nat → List Nat
  | [] => []
  | c :: cs => (encodeUtf16Scalar c).units ++ encodeUtf16List cs

/-- Standard UTF-16 decoding: one scalar per non-surrogate unit, one
scalar per high/low surrogate pair; `none` on lone or misordered
surrogates. -/
def decodeUtf16 : List Nat → Option (List Nat)
  | [] => some []
  | u :: rest =>
    if u < 0xD800 ∨ 0xE000 ≤ u then
      (decodeUtf16 rest).map (fun cs => u :: cs)
    else if u < 0xDC00 then
      match rest with
      | l :: rest2 =>
        if 0xDC00 ≤ l ∧ l < 0xE000 then
          (decodeUtf16 rest2).map
            (fun cs => (0x10000 + (u - 0xD800) * 0x400 + (l - 0xDC00)) :: cs)
        else none
      | [] => none
    else none

/-- Decoding a descriptor back to its scalar values, per the wrapper
interface of spec §6: the `length`-many content code units are read back
(ASCII bytes are scalars directly; UTF-16 units are decoded). -/
def decodeDescriptor : CFString → Option (List Nat)
  | .ascii a => some (a.data.take a.length)
  | .utf16 u => decodeUtf16 (u.data.take u.length)

/-!
## Lemmas about the transcoding loop
-/

theorem decodeUtf8Next_length {l : List Nat} {c : Nat} {rest : List Nat}
    (h : decodeUtf8Next l = some (c, rest)) : rest.length < l.length := by
  match l with
  | [] => simp [decodeUtf8Next] at h
  | b :: t =>
    simp only [decodeUtf8Next] at h
    repeat' split at h
    all_goals simp_all
    all_goals omega

theorem EncodeUtf16Iter.next_length {it it2 : EncodeUtf16Iter} {chars : Utf16Chars}
    (h : it.next = some (it2, chars)) : it2.data.length < it.data.length := by
  unfold EncodeUtf16Iter.next at h
  cases heq : decodeUtf8Next it.data with
  | none => rw [heq] at h; cases h
  | some p =>
    rw [heq] at h
    obtain ⟨c, rest⟩ := p
    simp only [Option.some.injEq, Prod.mk.injEq] at h
    obtain ⟨h1, -⟩ := h
    have hl := decodeUtf8Next_length heq
    rw [← h1]
    exact hl

theorem utf16WrittenAux_congr (f1 : Nat) : ∀ (f2 : Nat) (it : EncodeUtf16Iter),
    it.data.length < f1 → it.data.length < f2 →
    utf16WrittenAux f1 it = utf16WrittenAux f2 it := by
  induction f1 with
  | zero => intro f2 it h1 h2; omega
  | succ a ih =>
    intro f2 it h1 h2
    match f2, h2 with
    | b + 1, h2 =>
      simp only [utf16WrittenAux]
      cases heq : it.next with
      | none => rfl
      | some p =>
        obtain ⟨it2, chars⟩ := p
        have hlt := EncodeUtf16Iter.next_length heq
        dsimp only
        rw [ih b it2 (by omega) (by omega)]

/-- One step of the transcoding loop. -/
theorem utf16Written_step {it it2 : EncodeUtf16Iter} {chars : Utf16Chars}
    (h : it.next = some (it2, chars)) :
    utf16Written it = chars.units ++ utf16Written it2 := by
  have hlt := EncodeUtf16Iter.next_length h
  unfold utf16Written
  simp only [utf16WrittenAux]
  rw [h]
  dsimp only
  congr 1
  exact utf16WrittenAux_congr it.data.length (it2.data.length + 1) it2 (by omega) (by omega)

/-- The loop stops when the iterator is exhausted. -/
theorem utf16Written_none {it : EncodeUtf16Iter} (h : it.next = none) :
    utf16Written it = [] := by
  unfold utf16Written
  simp only [utf16WrittenAux]
  rw [h]

/-- The modelled UTF-8 decoder inverts the standard UTF-8 encoder on one
scalar, leaving the remaining bytes untouched. -/
theorem decodeUtf8Next_utf8EncodeScalar {c : Nat} (hc : c < 0x110000) (rest : List Nat) :
    decodeUtf8Next (utf8EncodeScalar c ++ rest) = some (c, rest) := by
  unfold utf8EncodeScalar
  repeat' split
  all_goals simp only [List.cons_append, List.nil_append, decodeUtf8Next]
  all_goals repeat' split
  all_goals first
    | (exfalso; omega)
    | (simp only [Option.some.injEq, Prod.mk.injEq, and_true]; try omega)

/-- One iterator step over encoded input consumes exactly one scalar's
bytes and emits that scalar's code units. -/
theorem EncodeUtf16Iter.next_utf8EncodeScalar {c : Nat} (hc : c < 0x110000)
    (rest : List Nat) :
    EncodeUtf16Iter.next ⟨utf8EncodeScalar c ++ rest⟩ =
      some (⟨rest⟩, encodeUtf16Scalar c) := by
  unfold EncodeUtf16Iter.next
  rw [show (EncodeUtf16Iter.mk (utf8EncodeScalar c ++ rest)).data =
        utf8EncodeScalar c ++ rest from rfl]
  rw [decodeUtf8Next_utf8EncodeScalar hc rest]

/-- The transcoding loop over the UTF-8 encoding of a scalar sequence
produces exactly the UTF-16 code units of that sequence. -/
theorem utf16Written_utf8Encode (cs : List Nat) (h : ∀ c ∈ cs, c < 0x110000) :
    utf16Written ⟨utf8Encode cs⟩ = encodeUtf16List cs := by
  induction cs with
  | nil =>
    rw [utf16Written_none (show EncodeUtf16Iter.next ⟨utf8Encode []⟩ = none from rfl)]
    rfl
  | cons c cs ih =>
    have hc : c < 0x110000 := h c (List.mem_cons_self c cs)
    rw [show utf8Encode (c :: cs) = utf8EncodeScalar c ++ utf8Encode cs from rfl]
    rw [utf16Written_step (EncodeUtf16Iter.next_utf8EncodeScalar hc (utf8Encode cs))]
    rw [ih (fun x hx => h x (List.mem_cons_of_mem c hx))]
    rfl

/-!
## Lemmas about UTF-16 decoding and ASCII classification
-/

/-- UTF-16 decoding inverts UTF-16 encoding on sequences of valid
scalars. -/
theorem decodeUtf16_encodeUtf16List (cs : List Nat) (h : ∀ c ∈ cs, ValidScalar c) :
    decodeUtf16 (encodeUtf16List cs) = some cs := by
  induction cs with
  | nil => rfl
  | cons c cs ih =>
    obtain ⟨hlt, hsur⟩ := h c (List.mem_cons_self c cs)
    have ih2 := ih (fun x hx => h x (List.mem_cons_of_mem c hx))
    rw [show encodeUtf16List (c :: cs) =
          (encodeUtf16Scalar c).units ++ encodeUtf16List cs from rfl]
    unfold encodeUtf16Scalar
    split
    · rename_i hle
      rw [show (Utf16Chars.mk (c, 0) 1).units = [c] from rfl]
      simp only [List.cons_append, List.nil_append]
      unfold decodeUtf16
      rw [if_pos (by omega : c < 0xD800 ∨ 0xE000 ≤ c)]
      rw [ih2]
      rfl
    · rename_i hgt
      rw [show (Utf16Chars.mk
            (0xD800 + (c - 0x10000) / 0x400, 0xDC00 + (c - 0x10000) % 0x400) 2).units =
          [0xD800 + (c - 0x10000) / 0x400, 0xDC00 + (c - 0x10000) % 0x400] from rfl]
      simp only [List.cons_append, List.nil_append]
      unfold decodeUtf16
      rw [if_neg (by omega)]
      rw [if_pos (by omega : 0xD800 + (c - 0x10000) / 0x400 < 0xDC00)]
      dsimp only
      rw [if_pos (by omega :
            0xDC00 ≤ 0xDC00 + (c - 0x10000) % 0x400 ∧
            0xDC00 + (c - 0x10000) % 0x400 < 0xE000)]
      rw [ih2]
      simp only [Option.map_some', Option.some.injEq, List.cons.injEq, and_true]
      omega

/-- A scalar below `0x80` encodes to the single identical byte. -/
theorem utf8EncodeScalar_ascii {c : Nat} (h : c < 0x80) : utf8EncodeScalar c = [c] := by
  unfold utf8EncodeScalar
  rw [if_pos h]

/-- A sequence of scalars below `0x80` UTF-8-encodes to itself. -/
theorem utf8Encode_ascii {cs : List Nat} (h : ∀ c ∈ cs, c < 0x80) :
    utf8Encode cs = cs := by
  induction cs with
  | nil => rfl
  | cons c cs ih =>
    rw [show utf8Encode (c :: cs) = utf8EncodeScalar c ++ utf8Encode cs from rfl,
        utf8EncodeScalar_ascii (h c (List.mem_cons_self c cs)),
        ih (fun x hx => h x (List.mem_cons_of_mem c hx))]
    rfl

/-- The classifier accepts exactly the all-ASCII byte sequences. -/
theorem is_ascii_iff (l : List Nat) : is_ascii l = true ↔ ∀ b ∈ l, b < 0x80 := by
  simp [is_ascii]

/-- A scalar at or above `0x80` contributes a non-ASCII byte. -/
theorem utf8EncodeScalar_not_ascii {c : Nat} (h : 0x80 ≤ c) :
    ∃ b, b ∈ utf8EncodeScalar c ∧ 0x80 ≤ b := by
  unfold utf8EncodeScalar
  repeat' split
  · exfalso; omega
  · exact ⟨0xC0 + c / 0x40, List.mem_cons_self _ _, by omega⟩
  · exact ⟨0xE0 + c / 0x1000, List.mem_cons_self _ _, by omega⟩
  · exact ⟨0xF0 + c / 0x40000, List.mem_cons_self _ _, by omega⟩

/-- Encoded bytes of a member scalar are members of the encoded
sequence. -/
theorem mem_utf8Encode_of_mem {cs : List Nat} {c b : Nat} (hc : c ∈ cs)
    (hb : b ∈ utf8EncodeScalar c) : b ∈ utf8Encode cs := by
  induction cs with
  | nil => cases hc
  | cons d ds ih =>
    rw [show utf8Encode (d :: ds) = utf8EncodeScalar d ++ utf8Encode ds from rfl]
    rcases List.mem_cons.1 hc with rfl | hmem
    · exact List.mem_append_left _ hb
    · exact List.mem_append_right _ (ih hmem)

/-- The classifier, on encoded input, accepts exactly the sequences of
scalars below `0x80`. -/
theorem is_ascii_utf8Encode (cs : List Nat) :
    is_ascii (utf8Encode cs) = true ↔ ∀ c ∈ cs, c < 0x80 := by
  constructor
  · intro h c hc
    by_contra hge
    push_neg at hge
    obtain ⟨b, hb, hb80⟩ := utf8EncodeScalar_not_ascii hge
    have := (is_ascii_iff _).1 h b (mem_utf8Encode_of_mem hc hb)
    omega
  · intro h
    rw [utf8Encode_ascii h, is_ascii_iff]
    exact h

/-!
## Lemmas about trailing-nul trimming
-/

/-- UTF-8 encoding distributes over append. -/
theorem utf8Encode_append (a b : List Nat) :
    utf8Encode (a ++ b) = utf8Encode a ++ utf8Encode b := by
  induction a with
  | nil => rfl
  | cons c cs ih => simp [utf8Encode, ih, List.append_assoc]

/-- A nonzero scalar's UTF-8 encoding ends in a nonzero byte. -/
theorem utf8EncodeScalar_getLast_ne_zero {c : Nat} (h : c ≠ 0) :
    ∃ x, (utf8EncodeScalar c).getLast? = some x ∧ x ≠ 0 := by
  unfold utf8EncodeScalar
  repeat' split
  · exact ⟨c, rfl, h⟩
  · exact ⟨0x80 + c % 0x40, rfl, by omega⟩
  · exact ⟨0x80 + c % 0x40, rfl, by omega⟩
  · exact ⟨0x80 + c % 0x40, rfl, by omega⟩

/-- The trimmer on a sequence with an explicit last element: it removes
the last element exactly when that element is zero. -/
theorem trim_trailing_nul_concat (s : List Nat) (b : Nat) :
    trim_trailing_nul (s ++ [b]) = if b = 0 then s else s ++ [b] := by
  unfold trim_trailing_nul
  rw [List.getLast?_concat, List.dropLast_concat]
  by_cases hb : b = 0
  · subst hb
    rw [if_pos rfl, if_pos rfl]
  · rw [if_neg (fun hs => hb (Option.some.inj hs)), if_neg hb]

/-- The trimmer returns a subsequence of its input. -/
theorem trim_trailing_nul_subset (s : List Nat) : trim_trailing_nul s ⊆ s := by
  unfold trim_trailing_nul
  split
  · exact List.dropLast_subset s
  · exact fun x hx => hx

/-- Byte-level trimming of encoded input agrees with scalar-level
trimming: a trailing zero byte is exactly a trailing `U+0000` scalar. -/
theorem trim_utf8Encode (cs : List Nat) :
    trim_trailing_nul (utf8Encode cs) = utf8Encode (trim_trailing_nul cs) := by
  rcases cs.eq_nil_or_concat' with hnil | ⟨ds, c, rfl⟩
  · subst hnil; rfl
  · rw [utf8Encode_append]
    by_cases hc : c = 0
    · subst hc
      rw [show utf8Encode [0] = [0] from rfl]
      rw [trim_trailing_nul_concat, trim_trailing_nul_concat]
      rw [if_pos rfl, if_pos rfl]
    · obtain ⟨x, hx, hx0⟩ := utf8EncodeScalar_getLast_ne_zero hc
      rw [show utf8Encode [c] = utf8EncodeScalar c ++ utf8Encode [] from rfl,
          show utf8Encode ([] : List Nat) = [] from rfl, List.append_nil]
      rw [trim_trailing_nul_concat, if_neg hc]
      unfold trim_trailing_nul
      rw [List.getLast?_append_of_ne_nil _ (by
            intro hnil
            rw [hnil] at hx
            cases hx)]
      rw [hx]
      rw [if_neg (fun hs => hx0 (Option.some.inj hs))]
      rw [utf8Encode_append,
          show utf8Encode [c] = utf8EncodeScalar c ++ utf8Encode [] from rfl,
          show utf8Encode ([] : List Nat) = [] from rfl, List.append_nil]

/-- Per scalar, the number of emitted UTF-16 code units never exceeds the
number of UTF-8 bytes (1 unit for 1-3 bytes, 2 units for 4 bytes). -/
theorem units_length_le_scalar_length (c : Nat) :
    (encodeUtf16Scalar c).units.length ≤ (utf8EncodeScalar c).length := by
  unfold encodeUtf16Scalar utf8EncodeScalar Utf16Chars.units
  repeat' split
  all_goals simp_all
  all_goals omega

/-- The full UTF-16 unit sequence is no longer than the UTF-8 byte
sequence it came from. -/
theorem encodeUtf16List_length_le (cs : List Nat) :
    (encodeUtf16List cs).length ≤ (utf8Encode cs).length := by
  induction cs with
  | nil => exact Nat.le_refl 0
  | cons c cs ih =>
    simp only [encodeUtf16List, utf8Encode, List.length_append]
    exact Nat.add_le_add (units_length_le_scalar_length c) ih

/-!
## The claims
-/

/-- C1: For every valid UTF-8 input string (represented by its sequence
of Unicode scalar values `cs`, with byte form `utf8Encode cs`), decoding
the constant-string descriptor produced by the `nsstring!` pipeline (trim,
classify, transcode, build) back to text yields exactly the input, except
that one trimmed trailing zero does not appear in the output, while
interior zeros are preserved (`trim_trailing_nul cs` removes exactly a
final `U+0000`, nothing else). -/
theorem C1_roundtrip (cs : List Nat) (h : ∀ c ∈ cs, ValidScalar c) :
    decodeDescriptor (nsstring (utf8Encode cs)) = some (trim_trailing_nul cs) := by
  have hsub : ∀ c ∈ trim_trailing_nul cs, ValidScalar c :=
    fun c hc => h c (trim_trailing_nul_subset cs hc)
  simp only [nsstring]
  rw [trim_utf8Encode]
  by_cases hasc : is_ascii (utf8Encode (trim_trailing_nul cs)) = true
  · rw [if_pos hasc]
    have hall : ∀ c ∈ trim_trailing_nul cs, c < 0x80 := (is_ascii_utf8Encode _).1 hasc
    rw [utf8Encode_ascii hall]
    unfold decodeDescriptor
    dsimp only
    rw [List.take_left]
  · rw [if_neg hasc]
    unfold decodeDescriptor
    rw [utf16Written_utf8Encode _ (fun c hc => (hsub c hc).1)]
    dsimp only
    rw [List.take_left]
    exact decodeUtf16_encodeUtf16List _ hsub

/-- Witness for C1 at the input `"H\0🦀\0"` (scalars `[0x48, 0, 0x1F980,
0]`): the interior zero survives the round trip, the trailing zero is
trimmed away. -/
theorem C1_roundtrip_witness :
    (∀ c ∈ [0x48, 0, 0x1F980, 0], ValidScalar c) ∧
    decodeDescriptor (nsstring (utf8Encode [0x48, 0, 0x1F980, 0])) =
      some (trim_trailing_nul [0x48, 0, 0x1F980, 0]) :=
  ⟨by decide, C1_roundtrip [0x48, 0, 0x1F980, 0] (by decide)⟩

/-- C2: For every Unicode codepoint in `U+10000..U+10FFFF` appearing in
the input, one step of the UTF-16 transcoder consumes its UTF-8 bytes and
emits exactly two code units, high then low, by the standard surrogate
formula (subtract `0x10000`, high 10 bits plus `0xD800`, low 10 bits plus
`0xDC00`); the high unit lies in `0xD800..0xDBFF`, the low in
`0xDC00..0xDFFF`, and reconstructing the codepoint from the pair yields
the original value. -/
theorem C2_surrogate_pair (c : Nat) (rest : List Nat)
    (h1 : 0x10000 ≤ c) (h2 : c ≤ 0x10FFFF) :
    EncodeUtf16Iter.next ⟨utf8EncodeScalar c ++ rest⟩ =
      some (⟨rest⟩, encodeUtf16Scalar c) ∧
    (encodeUtf16Scalar c).len = 2 ∧
    (encodeUtf16Scalar c).units =
      [0xD800 + (c - 0x10000) / 0x400, 0xDC00 + (c - 0x10000) % 0x400] ∧
    0xD800 ≤ (encodeUtf16Scalar c).repr.1 ∧ (encodeUtf16Scalar c).repr.1 ≤ 0xDBFF ∧
    0xDC00 ≤ (encodeUtf16Scalar c).repr.2 ∧ (encodeUtf16Scalar c).repr.2 ≤ 0xDFFF ∧
    0x10000 + ((encodeUtf16Scalar c).repr.1 - 0xD800) * 0x400 +
        ((encodeUtf16Scalar c).repr.2 - 0xDC00) = c := by
  have henc : encodeUtf16Scalar c =
      ⟨(0xD800 + (c - 0x10000) / 0x400, 0xDC00 + (c - 0x10000) % 0x400), 2⟩ := by
    unfold encodeUtf16Scalar
    rw [if_neg (by omega)]
  refine ⟨EncodeUtf16Iter.next_utf8EncodeScalar (by omega) rest, ?_, ?_, ?_, ?_, ?_, ?_, ?_⟩
  · rw [henc]
  · rw [henc]; rfl
  · rw [henc]; dsimp only; omega
  · rw [henc]; dsimp only; omega
  · rw [henc]; dsimp only; omega
  · rw [henc]; dsimp only; omega
  · rw [henc]; dsimp only; omega

/-- Witness for C2 at `U+1F980`: the emitted pair is `0xD83E, 0xDD80`. -/
theorem C2_surrogate_pair_witness :
    0x10000 ≤ 0x1F980 ∧ 0x1F980 ≤ 0x10FFFF ∧
    (encodeUtf16Scalar 0x1F980).units =
      [0xD800 + (0x1F980 - 0x10000) / 0x400, 0xDC00 + (0x1F980 - 0x10000) % 0x400] :=
  ⟨by decide, by decide,
    (C2_surrogate_pair 0x1F980 [] (by decide) (by decide)).2.2.1⟩

/-- C3: the Ascii variant is chosen iff every byte of the trimmed input is
below `0x80`; a trimmed input containing a byte at or above `0x80` yields
the Utf16 variant. -/
theorem C3_ascii_selection (s : List Nat) :
    ((nsstring s).isAscii = true ↔ ∀ b ∈ trim_trailing_nul s, b < 0x80) ∧
    ((∃ b ∈ trim_trailing_nul s, 0x80 ≤ b) → (nsstring s).isAscii = false) := by
  have hmain : (nsstring s).isAscii = true ↔ ∀ b ∈ trim_trailing_nul s, b < 0x80 := by
    simp only [nsstring]
    by_cases h : is_ascii (trim_trailing_nul s) = true
    · rw [if_pos h]
      simpa [CFString.isAscii] using (is_ascii_iff _).1 h
    · rw [if_neg h]
      simp only [CFString.isAscii]
      constructor
      · intro hfalse; exact absurd hfalse (by simp)
      · intro hall; exact absurd ((is_ascii_iff _).2 hall) h
  refine ⟨hmain, fun ⟨b, hb, hb80⟩ => ?_⟩
  cases hv : (nsstring s).isAscii with
  | false => rfl
  | true =>
    have := hmain.1 hv b hb
    omega

/-- Witness for C3 at the trimmed input `"ä"` (bytes `C3 A4`): a byte at
or above `0x80` is present and the Utf16 variant is chosen. -/
theorem C3_ascii_selection_witness :
    (∃ b ∈ trim_trailing_nul [0xC3, 0xA4], 0x80 ≤ b) ∧
    (nsstring [0xC3, 0xA4]).isAscii = false :=
  ⟨by decide, (C3_ascii_selection [0xC3, 0xA4]).2 (by decide)⟩

/-- C4: in both variants, the descriptor's length field counts exactly
the content code units, excluding the single appended zero terminator:
the buffer is one unit longer than the length field and ends in the
terminator. -/
theorem C4_length_excludes_terminator (s : List Nat) :
    (nsstring s).data.length = (nsstring s).length + 1 ∧
    (nsstring s).data.getLast? = some 0 := by
  simp only [nsstring]
  by_cases h : is_ascii (trim_trailing_nul s) = true
  · rw [if_pos h]
    simp [CFString.data, CFString.length, List.getLast?_concat]
  · rw [if_neg h]
    simp [CFString.data, CFString.length, List.getLast?_concat]

/-- C5: the input `"🦀"` (UTF-8 bytes `F0 9F A6 80`, codepoint `U+1F980`)
produces the Utf16 variant with length field 2 and buffer code units
`[0xD83E, 0xDD80, 0x0000]` in that order. -/
theorem C5_crab :
    nsstring [0xF0, 0x9F, 0xA6, 0x80] = CFString.utf16 ⟨[0xD83E, 0xDD80, 0], 2⟩ := by
  decide

/-- C6: the trailing-terminator trimmer returns the empty sequence
unchanged, removes exactly one trailing zero byte when the last byte is
zero, and otherwise returns the sequence unchanged (so interior zero
bytes, which live in the preserved prefix `s`, are untouched). -/
theorem C6_trimmer (s : List Nat) (b : Nat) :
    trim_trailing_nul ([] : List Nat) = [] ∧
    trim_trailing_nul (s ++ [b]) = if b = 0 then s else s ++ [b] :=
  ⟨rfl, trim_trailing_nul_concat s b⟩

/-- C7: for every input that does not end in a zero byte, appending one
zero byte leaves the produced descriptor (length field and buffer code
units) unchanged. -/
theorem C7_trailing_nul_ignored (s : List Nat) (h : s.getLast? ≠ some 0) :
    nsstring (s ++ [0]) = nsstring s := by
  have htrim : trim_trailing_nul (s ++ [0]) = trim_trailing_nul s := by
    rw [trim_trailing_nul_concat, if_pos rfl]
    unfold trim_trailing_nul
    rw [if_neg h]
  unfold nsstring
  rw [htrim]

/-- Witness for C7 at `"example"` versus `"example\0"`. -/
theorem C7_trailing_nul_ignored_witness :
    ([0x65, 0x78, 0x61, 0x6D, 0x70, 0x6C, 0x65] : List Nat).getLast? ≠ some 0 ∧
    nsstring ([0x65, 0x78, 0x61, 0x6D, 0x70, 0x6C, 0x65] ++ [0]) =
      nsstring [0x65, 0x78, 0x61, 0x6D, 0x70, 0x6C, 0x65] :=
  ⟨by decide,
    C7_trailing_nul_ignored [0x65, 0x78, 0x61, 0x6D, 0x70, 0x6C, 0x65] (by decide)⟩

/-- C8: for well-formed UTF-8 trimmed input of `N` bytes, the transcoding
loop emits at most `N` code units, so the written count never exceeds the
fixed output buffer's `N` elements and every write `out[written]` is in
bounds. -/
theorem C8_buffer_bound (cs : List Nat) (h : ∀ c ∈ cs, ValidScalar c) :
    (utf16Written ⟨utf8Encode cs⟩).length ≤ (utf8Encode cs).length := by
  rw [utf16Written_utf8Encode cs (fun c hc => (h c hc).1)]
  exact encodeUtf16List_length_le cs

/-- Witness for C8 at `"🦀"`: 2 written units for 4 input bytes. -/
theorem C8_buffer_bound_witness :
    (∀ c ∈ [0x1F980], ValidScalar c) ∧
    (utf16Written ⟨utf8Encode [0x1F980]⟩).length ≤ (utf8Encode [0x1F980]).length :=
  ⟨by decide, C8_buffer_bound [0x1F980] (by decide)⟩

/-- C10: the empty input and the input consisting of a single zero byte
both produce the Ascii variant with length field 0 and buffer exactly one
zero terminator byte. -/
theorem C10_empty_inputs :
    nsstring [] = CFString.ascii ⟨[0], 0⟩ ∧
    nsstring [0] = CFString.ascii ⟨[0], 0⟩ := by
  decide

end Fruity
